import Mathlib

/-!
Verification of the kabubot news-scraper pipeline.

Go strings are modelled as lists of bytes (`Str := List Nat`, each entry a
byte value).  Machine integers are modelled as `Nat`/`Int` with explicit
reduction modulo 2^32 where the Go code relies on 32-bit wraparound
(SHA-256).  Fallible Go code (URL parsing, slicing that can panic) is
modelled with `Option`, where `none` stands for the error/panic outcome.
-/

set_option maxRecDepth 4000

/-- Byte list standing for a Go `string` (Go strings are byte sequences). -/
abbrev Str := List Nat

/-- UTF-8 encoding of one Unicode code point, as Go produces for a rune. -/
def utf8Char (n : Nat) : List Nat :=
  if n < 0x80 then [n]
  else if n < 0x800 then [0xC0 + n / 0x40, 0x80 + n % 0x40]
  else if n < 0x10000 then
    [0xE0 + n / 0x1000, 0x80 + (n / 0x40) % 0x40, 0x80 + n % 0x40]
  else
    [0xF0 + n / 0x40000, 0x80 + (n / 0x1000) % 0x40,
     0x80 + (n / 0x40) % 0x40, 0x80 + n % 0x40]

/-- The bytes of a Lean string literal, UTF-8 encoded as Go stores it. -/
def lit (s : String) : Str :=
  s.data.foldr (fun c acc => utf8Char c.toNat ++ acc) []

/- ### 32-bit arithmetic helpers (Go `uint32`) -/

def w32 (n : Nat) : Nat := n % 4294967296

def add32 (a b : Nat) : Nat := w32 (a + b)

def rotr32 (n x : Nat) : Nat := w32 ((x >>> n) ||| (x <<< (32 - n)))

def not32 (x : Nat) : Nat := 4294967295 ^^^ x

/- ### SHA-256 (crypto/sha256), on byte lists -/

def shaK : List Nat :=
  [0x428A2F98, 0x71374491, 0xB5C0FBCF, 0xE9B5DBA5, 0x3956C25B, 0x59F111F1,
   0x923F82A4, 0xAB1C5ED5, 0xD807AA98, 0x12835B01, 0x243185BE, 0x550C7DC3,
   0x72BE5D74, 0x80DEB1FE, 0x9BDC06A7, 0xC19BF174, 0xE49B69C1, 0xEFBE4786,
   0x0FC19DC6, 0x240CA1CC, 0x2DE92C6F, 0x4A7484AA, 0x5CB0A9DC, 0x76F988DA,
   0x983E5152, 0xA831C66D, 0xB00327C8, 0xBF597FC7, 0xC6E00BF3, 0xD5A79147,
   0x06CA6351, 0x14292967, 0x27B70A85, 0x2E1B2138, 0x4D2C6DFC, 0x53380D13,
   0x650A7354, 0x766A0ABB, 0x81C2C92E, 0x92722C85, 0xA2BFE8A1, 0xA81A664B,
   0xC24B8B70, 0xC76C51A3, 0xD192E819, 0xD6990624, 0xF40E3585, 0x106AA070,
   0x19A4C116, 0x1E376C08, 0x2748774C, 0x34B0BCB5, 0x391C0CB3, 0x4ED8AA4A,
   0x5B9CCA4F, 0x682E6FF3, 0x748F82EE, 0x78A5636F, 0x84C87814, 0x8CC70208,
   0x90BEFFFA, 0xA4506CEB, 0xBEF9A3F7, 0xC67178F2]

def shaH0 : List Nat :=
  [0x6A09E667, 0xBB67AE85, 0x3C6EF372, 0xA54FF53A,
   0x510E527F, 0x9B05688C, 0x1F83D9AB, 0x5BE0CD19]

/-- 64-bit big-endian length field of the SHA-256 padding. -/
def be64 (n : Nat) : List Nat :=
  let m := n % 18446744073709551616
  [(m >>> 56) &&& 255, (m >>> 48) &&& 255, (m >>> 40) &&& 255,
   (m >>> 32) &&& 255, (m >>> 24) &&& 255, (m >>> 16) &&& 255,
   (m >>> 8) &&& 255, m &&& 255]

/-- SHA-256 message padding: 0x80, zeros, then the bit length. -/
def shaPad (m : Str) : Str :=
  let L := m.length
  let k := (55 + 64 - L % 64) % 64
  m ++ [0x80] ++ List.replicate k 0 ++ be64 (8 * L)

/-- Big-endian 32-bit words from bytes. -/
def toWords : Str → List Nat
  | a :: b :: c :: d :: rest =>
      ((a <<< 24) ||| (b <<< 16) ||| (c <<< 8) ||| d) :: toWords rest
  | _ => []

/-- 16-word blocks of the padded message (fuel-driven chunking). -/
def chunk16 : Nat → List Nat → List (List Nat)
  | 0, _ => []
  | _, [] => []
  | fuel + 1, ws => ws.take 16 :: chunk16 fuel (ws.drop 16)

def smallSigma0 (x : Nat) : Nat := rotr32 7 x ^^^ rotr32 18 x ^^^ (x >>> 3)

def smallSigma1 (x : Nat) : Nat := rotr32 17 x ^^^ rotr32 19 x ^^^ (x >>> 10)

def bigSigma0 (x : Nat) : Nat := rotr32 2 x ^^^ rotr32 13 x ^^^ rotr32 22 x

def bigSigma1 (x : Nat) : Nat := rotr32 6 x ^^^ rotr32 11 x ^^^ rotr32 25 x

/-- Extend the 16 block words to the 64-entry message schedule. -/
def extendW : Nat → List Nat → List Nat
  | 0, ws => ws
  | fuel + 1, ws =>
      let n := ws.length
      let nw := w32 (smallSigma1 (ws.getD (n - 2) 0) + ws.getD (n - 7) 0 +
                     smallSigma0 (ws.getD (n - 15) 0) + ws.getD (n - 16) 0)
      extendW fuel (ws ++ [nw])

/-- One round of the SHA-256 compression function. -/
def shaRound (st : List Nat) (kw : Nat × Nat) : List Nat :=
  match st with
  | [a, b, c, d, e, f, g, h] =>
      let t1 := w32 (h + bigSigma1 e + ((e &&& f) ^^^ (not32 e &&& g)) +
                     kw.1 + kw.2)
      let t2 := w32 (bigSigma0 a + ((a &&& b) ^^^ (a &&& c) ^^^ (b &&& c)))
      [add32 t1 t2, a, b, c, add32 d t1, e, f, g]
  | st => st

/-- Compress one 16-word block into the running hash. -/
def shaBlock (H : List Nat) (block : List Nat) : List Nat :=
  let ws := extendW 48 block
  let st := (shaK.zip ws).foldl shaRound H
  (H.zip st).map (fun p => add32 p.1 p.2)

/-- Big-endian bytes of one 32-bit word. -/
def be32 (n : Nat) : List Nat :=
  [(n >>> 24) &&& 255, (n >>> 16) &&& 255, (n >>> 8) &&& 255, n &&& 255]

/-- SHA-256 digest (32 bytes) of a byte string. -/
def sha256 (m : Str) : Str :=
  let padded := shaPad m
  let blocks := chunk16 padded.length (toWords padded)
  ((blocks.foldl shaBlock shaH0).map be32).flatten

/-- Lowercase hex encoding of a byte (encoding/hex alphabet). -/
def hexByte (b : Nat) : List Nat :=
  let lo := b % 16
  let hi := (b / 16) % 16
  [(if hi < 10 then 48 + hi else 87 + hi), (if lo < 10 then 48 + lo else 87 + lo)]

/-- hex.EncodeToString over a byte string. -/
def hexEncode (bs : Str) : Str := (bs.map hexByte).flatten

/-- `generateHash` (main.go 486-492): a SHA-256 digest is fed `title`,
`rawURL` and `normalizedURL` by three successive `Write` calls — i.e. the
digest of their concatenation with no separators — and hex-encoded. -/
def generateHash (title rawURL normalizedURL : Str) : Str :=
  hexEncode (sha256 (title ++ rawURL ++ normalizedURL))

/-- `truncateString` (main.go 427-432).  Go slicing `s[:max]` panics when
`max` is negative, which is modelled by `none`. -/
def truncateString (s : Str) (max : Int) : Option Str :=
  if (s.length : Int) ≤ max then some s
  else if 0 ≤ max then some (s.take max.toNat ++ lit "...")
  else none

/- ### net/url model (the standard-library behaviour normalizeURL relies on) -/

def isUpperAlpha (b : Nat) : Bool := 65 ≤ b && b ≤ 90

def isLowerAlpha (b : Nat) : Bool := 97 ≤ b && b ≤ 122

def isAlpha (b : Nat) : Bool := isUpperAlpha b || isLowerAlpha b

def isDigit (b : Nat) : Bool := 48 ≤ b && b ≤ 57

def ishex (b : Nat) : Bool :=
  isDigit b || (97 ≤ b && b ≤ 102) || (65 ≤ b && b ≤ 70)

def unhex (b : Nat) : Nat :=
  if isDigit b then b - 48
  else if 97 ≤ b && b ≤ 102 then b - 97 + 10
  else if 65 ≤ b && b ≤ 70 then b - 65 + 10
  else 0

/-- Uppercase hex digit, as the escape table "0123456789ABCDEF". -/
def hexUp (n : Nat) : Nat := if n < 10 then 48 + n else 55 + n

/-- ASCII lowercasing of one byte (strings.ToLower on a scheme). -/
def toLowerByte (b : Nat) : Nat := if isUpperAlpha b then b + 32 else b

def toLower (s : Str) : Str := s.map toLowerByte

/-- The encoding contexts of net/url. -/
inductive EncMode where
  | path | pathSegment | host | zone | userPassword | queryComponent | fragment
  deriving DecidableEq, Repr

/-- net/url shouldEscape. -/
def shouldEscape (c : Nat) (mode : EncMode) : Bool :=
  if isAlpha c || isDigit c then false
  else if (mode = EncMode.host || mode = EncMode.zone) &&
      (c ∈ [33, 36, 38, 39, 40, 41, 42, 43, 44, 59, 61, 58, 91, 93, 60, 62, 34]) then
    false
  else if c ∈ [45, 95, 46, 126] then false
  else if c ∈ [36, 38, 43, 44, 47, 58, 59, 61, 63, 64] then
    match mode with
    | EncMode.path => c == 63
    | EncMode.pathSegment => c == 47 || c == 59 || c == 44 || c == 63
    | EncMode.userPassword => c == 64 || c == 47 || c == 63 || c == 58
    | EncMode.queryComponent => true
    | EncMode.fragment => false
    | _ => if mode = EncMode.fragment && c ∈ [33, 40, 41, 42] then false else true
  else if mode = EncMode.fragment && c ∈ [33, 40, 41, 42] then false
  else true

/-- net/url unescape.  `none` models the EscapeError / InvalidHostError
returns. -/
def unescape : Str → EncMode → Option Str
  | [], _ => some []
  | c :: rest, mode =>
      if c = 37 then
        match rest with
        | a :: b :: rest' =>
            if ishex a && ishex b then
              if mode = EncMode.host && unhex a < 8 && ¬(a = 50 && b = 53) then
                none
              else if mode = EncMode.zone &&
                  (¬(a = 50 && b = 53) && unhex a * 16 + unhex b ≠ 32 &&
                   shouldEscape (unhex a * 16 + unhex b) EncMode.host) then
                none
              else (unescape rest' mode).map ((unhex a * 16 + unhex b) :: ·)
            else none
        | _ => none
      else if c = 43 then
        (unescape rest mode).map
          ((if mode = EncMode.queryComponent then 32 else 43) :: ·)
      else if (mode = EncMode.host || mode = EncMode.zone) && c < 128 &&
          shouldEscape c mode then none
      else (unescape rest mode).map (c :: ·)

/-- net/url escape of one byte. -/
def escapeByte (c : Nat) (mode : EncMode) : Str :=
  if shouldEscape c mode then
    if c == 32 && mode = EncMode.queryComponent then [43]
    else [37, hexUp (c / 16), hexUp (c % 16)]
  else [c]

/-- net/url escape. -/
def escape (s : Str) (mode : EncMode) : Str :=
  s.foldr (fun c acc => escapeByte c mode ++ acc) []

/-- net/url validEncoded (used by URL.EscapedPath). -/
def validEncoded (s : Str) (mode : EncMode) : Bool :=
  s.all fun c =>
    if c ∈ [33, 36, 38, 39, 40, 41, 42, 43, 44, 59, 61, 58, 64] then true
    else if c == 91 || c == 93 then true
    else if c == 37 then true
    else ¬shouldEscape c mode

/-- net/url validOptionalPort. -/
def validOptionalPort (port : Str) : Bool :=
  match port with
  | [] => true
  | 58 :: digits => digits.all isDigit
  | _ => false

/-- net/url validUserinfo. -/
def validUserinfo (s : Str) : Bool :=
  s.all fun r =>
    isAlpha r || isDigit r ||
    r ∈ [45, 46, 95, 58, 126, 33, 36, 38, 39, 40, 41, 42, 43, 44, 59, 61, 37, 64]

/-- The fields of a parsed net/url URL that normalizeURL reads. -/
structure GoURL where
  scheme : Str
  opq : Str
  host : Str
  path : Str
  rawPath : Str
  forceQuery : Bool
  rawQuery : Str
  fragment : Str
  deriving DecidableEq, Repr

def emptyURL : GoURL :=
  { scheme := [], opq := [], host := [], path := [], rawPath := [],
    forceQuery := false, rawQuery := [], fragment := [] }

/-- strings.HasPrefix. -/
def hasPref : Str → Str → Bool
  | [], _ => true
  | _ :: _, [] => false
  | a :: as, b :: bs => a = b && hasPref as bs

/-- strings.HasSuffix. -/
def hasSuf (s suf : Str) : Bool :=
  suf.length ≤ s.length && s.drop (s.length - suf.length) = suf

/-- strings.Contains for a single byte. -/
def containsByte (b : Nat) (s : Str) : Bool := s.any (· = b)

/-- strings.Cut at the first occurrence of a byte: (before, after, found). -/
def cutByte (b : Nat) : Str → Str × Str × Bool
  | [] => ([], [], false)
  | c :: rest =>
      if c = b then ([], rest, true)
      else
        let r := cutByte b rest
        (c :: r.1, r.2.1, r.2.2)

/-- strings.Index for a single byte. -/
def indexOfByte (b : Nat) : Str → Option Nat
  | [] => none
  | c :: rest => if c = b then some 0 else (indexOfByte b rest).map (· + 1)

/-- strings.LastIndex for a single byte. -/
def lastIndexByte (b : Nat) : Str → Option Nat
  | [] => none
  | c :: rest =>
      match lastIndexByte b rest with
      | some i => some (i + 1)
      | none => if c = b then some 0 else none

/-- strings.Index for a substring. -/
def indexOfSub (pat : Str) : Str → Option Nat
  | [] => if pat = [] then some 0 else none
  | c :: rest =>
      if hasPref pat (c :: rest) then some 0
      else (indexOfSub pat rest).map (· + 1)

/-- strings.TrimSuffix. -/
def trimSuffix (s suf : Str) : Str :=
  if hasSuf s suf then s.take (s.length - suf.length) else s

/-- stringContainsCTLByte. -/
def containsCtl (s : Str) : Bool := s.any fun b => b < 32 || b == 127

/-- net/url getScheme; returns (scheme, rest), `none` on
"missing protocol scheme". -/
def getSchemeAux (orig : Str) : Str → Str → Option (Str × Str)
  | _, [] => some ([], orig)
  | acc, c :: cs =>
      if isAlpha c then getSchemeAux orig (acc ++ [c]) cs
      else if isDigit c || c = 43 || c = 45 || c = 46 then
        if acc = [] then some ([], orig) else getSchemeAux orig (acc ++ [c]) cs
      else if c = 58 then
        if acc = [] then none else some (acc, cs)
      else some ([], orig)

def getScheme (s : Str) : Option (Str × Str) := getSchemeAux s [] s

/-- The query split of net/url parse: handles the lone-trailing-`?`
(ForceQuery) special case, else cuts at the first `?`.
Returns (rest, rawQuery, forceQuery). -/
def queryCut (rest : Str) : Str × Str × Bool :=
  if hasSuf rest [63] && ¬containsByte 63 (trimSuffix rest [63]) then
    (rest.take (rest.length - 1), [], true)
  else
    let r := cutByte 63 rest
    (r.1, r.2.1, false)

/-- net/url parseHost. -/
def parseHost (host : Str) : Option Str :=
  if hasPref [91] host then
    match lastIndexByte 93 host with
    | none => none
    | some i =>
        if ¬validOptionalPort (host.drop (i + 1)) then none
        else
          match indexOfSub (lit "%25") (host.take i) with
          | some zone =>
              match unescape (host.take zone) EncMode.host,
                    unescape ((host.take i).drop zone) EncMode.zone,
                    unescape (host.drop i) EncMode.host with
              | some h1, some h2, some h3 => some (h1 ++ h2 ++ h3)
              | _, _, _ => none
          | none => unescape host EncMode.host
  else
    match lastIndexByte 58 host with
    | some i =>
        if ¬validOptionalPort (host.drop i) then none
        else unescape host EncMode.host
    | none => unescape host EncMode.host

/-- net/url parseAuthority; the userinfo is validated and unescaped for its
error cases but only the host is returned (normalizeURL drops the user). -/
def parseAuthority (authority : Str) : Option Str :=
  match lastIndexByte 64 authority with
  | none => parseHost authority
  | some i =>
      match parseHost (authority.drop (i + 1)) with
      | none => none
      | some host =>
          let userinfo := authority.take i
          if ¬validUserinfo userinfo then none
          else if ¬containsByte 58 userinfo then
            match unescape userinfo EncMode.userPassword with
            | none => none
            | some _ => some host
          else
            let r := cutByte 58 userinfo
            match unescape r.1 EncMode.userPassword,
                  unescape r.2.1 EncMode.userPassword with
            | some _, some _ => some host
            | _, _ => none

/-- URL.setPath: returns (Path, RawPath). -/
def setPathParts (p : Str) : Option (Str × Str) :=
  match unescape p EncMode.path with
  | none => none
  | some path =>
      some (path, if escape path EncMode.path = p then [] else p)

/-- net/url parse(rawURL, viaRequest=false), without the fragment step. -/
def parseInner (rawURL : Str) : Option GoURL :=
  if containsCtl rawURL then none
  else if rawURL = [42] then some { emptyURL with path := [42] }
  else
    match getScheme rawURL with
    | none => none
    | some (sch, rest0) =>
        let scheme := toLower sch
        let (rest1, rawQuery, forceQuery) := queryCut rest0
        if ¬hasPref [47] rest1 && scheme ≠ [] then
          some { emptyURL with
                   scheme := scheme, opq := rest1,
                   rawQuery := rawQuery, forceQuery := forceQuery }
        else if ¬hasPref [47] rest1 && containsByte 58 (cutByte 47 rest1).1 then
          none
        else if (scheme ≠ [] || ¬hasPref [47, 47, 47] rest1) &&
            hasPref [47, 47] rest1 then
          let authAll := rest1.drop 2
          let (authority, rest2) :=
            match indexOfByte 47 authAll with
            | some i => (authAll.take i, authAll.drop i)
            | none => (authAll, [])
          match parseAuthority authority with
          | none => none
          | some host =>
              match setPathParts rest2 with
              | none => none
              | some (path, rawPath) =>
                  some { scheme := scheme, opq := [], host := host,
                           path := path, rawPath := rawPath,
                           forceQuery := forceQuery, rawQuery := rawQuery,
                           fragment := [] }
        else
          match setPathParts rest1 with
          | none => none
          | some (path, rawPath) =>
              some { emptyURL with
                       scheme := scheme, path := path,
                       rawPath := rawPath, forceQuery := forceQuery,
                       rawQuery := rawQuery }

/-- net/url Parse: fragment split, inner parse, setFragment errors. -/
def urlParse (rawURL : Str) : Option GoURL :=
  let c := cutByte 35 rawURL
  match parseInner c.1 with
  | none => none
  | some url =>
      if c.2.1 = [] then some url
      else
        match unescape c.2.1 EncMode.fragment with
        | none => none
        | some f => some { url with fragment := f }

/-- URL.EscapedPath fallback branch. -/
def escapedPathDefault (u : GoURL) : Str :=
  if u.path = [42] then [42] else escape u.path EncMode.path

/-- URL.EscapedPath. -/
def escapedPath (u : GoURL) : Str :=
  if u.rawPath ≠ [] && validEncoded u.rawPath EncMode.path then
    match unescape u.rawPath EncMode.path with
    | some p => if p = u.path then u.rawPath else escapedPathDefault u
    | none => escapedPathDefault u
  else escapedPathDefault u

/-- url.PathUnescape. -/
def pathUnescape (s : Str) : Option Str := unescape s EncMode.pathSegment

/-- strings.ReplaceAll for a non-empty pattern (fuel-driven left-to-right
scan; the empty-pattern rune-insertion case of Go is never used here). -/
def replaceAllAux (pat repl : Str) : Nat → Str → Str
  | 0, s => s
  | _, [] => []
  | fuel + 1, c :: rest =>
      if pat ≠ [] && hasPref pat (c :: rest) then
        repl ++ replaceAllAux pat repl fuel ((c :: rest).drop pat.length)
      else c :: replaceAllAux pat repl fuel rest

def replaceAll (s pat repl : Str) : Str := replaceAllAux pat repl s.length s

/-- `normalizeURL` (main.go 409-425): parse, decode the escaped path, fold a
literal "%3F" back to `?`, and reassemble `scheme://host path [?query]`. -/
def normalizeURL (rawURL : Str) : Option Str :=
  match urlParse rawURL with
  | none => none
  | some u =>
      match pathUnescape (escapedPath u) with
      | none => none
      | some dp0 =>
          let dp := replaceAll dp0 (lit "%3F") (lit "?")
          if u.rawQuery ≠ [] then
            some (u.scheme ++ lit "://" ++ u.host ++ dp ++ lit "?" ++ u.rawQuery)
          else
            some (u.scheme ++ lit "://" ++ u.host ++ dp)

/- ### Persistence data model and the extraction pass -/

/-- The persisted `Article` entity (main.go 596-611).  Time values are unix
seconds; `createdAt`/`updatedAt` are gorm-managed timestamps that no claim
touches and are stored as given. -/
structure Article where
  title : Str
  url : Str
  hash : Str
  content : Str
  body : Str
  summary : Str
  category : Str
  publishedAt : Int
  createdAt : Int
  updatedAt : Int
  lastScrapedAt : Int
  retryCount : Int
  deriving DecidableEq, Repr

/-- An ephemeral candidate record of the kabutan market-news extractor: the
`map[string]interface{}` with its four optional string fields. -/
structure KCand where
  date : Option Str
  category : Option Str
  title : Option Str
  url : Option Str
  deriving DecidableEq, Repr

/-- `hasRequiredFields` (main.go 386-407), parameterised by the RFC3339
parser `parseDate` (time.Parse lives outside this repository; every theorem
below is uniform in it). -/
def hasRequiredFields (parseDate : Str → Option Int) (c : KCand) : Bool :=
  c.date.isSome && c.category.isSome && c.title.isSome && c.url.isSome &&
  (match c.date with
   | some d => (parseDate d).isSome
   | none => false)

/-- A fresh row as built by `db.Create` in scrapeKabutanArticles
(main.go 270-277): URL and Hash are the canonical URL and the identity hash,
Content is "カテゴリ: %s" of the category; gorm-managed timestamps are 0. -/
def mkArticle (t norm hash cat : Str) (pub : Int) : Article :=
  { title := t, url := norm, hash := hash,
    content := lit "カテゴリ: " ++ cat, body := [], summary := [],
    category := cat, publishedAt := pub, createdAt := 0, updatedAt := 0,
    lastScrapedAt := 0, retryCount := 0 }

/-- The per-candidate body of scrapeKabutanArticles' OnHTML handler
(main.go 234-283) over a database state `st.1` and the list `st.2` of
candidates accumulated for the notifier: validate, canonicalize (the
candidate's url field is overwritten with the canonical form), hash, check
`url = ? OR hash = ?` against Persistence, parse the date, insert, append. -/
def scrapeStep (parseDate : Str → Option Int)
    (st : List Article × List KCand) (c : KCand) :
    List Article × List KCand :=
  if ¬hasRequiredFields parseDate c then st
  else
    match c.title, c.category, c.date, c.url with
    | some t, some cat, some d, some u0 =>
        match normalizeURL u0 with
        | none => st
        | some norm =>
            let c1 : KCand := { c with url := some norm }
            let hash := generateHash t norm norm
            if st.1.any (fun a => a.url = norm || a.hash = hash) then st
            else
              match (if d = [] then some 0 else parseDate d) with
              | none => st
              | some pub =>
                  (st.1 ++ [mkArticle t norm hash cat pub], st.2 ++ [c1])
    | _, _, _, _ => st

/-- One whole extraction pass over the candidate sequence of a page, in
source-listing order. -/
def scrapePass (parseDate : Str → Option Int) (db : List Article)
    (cands : List KCand) : List Article × List KCand :=
  cands.foldl (scrapeStep parseDate) (db, [])

/-- The hash the extraction pass computes for a candidate (main.go 240-249):
`article["url"]` has already been overwritten with the canonical URL when
`generateHash(title, article["url"], norm)` runs, so both URL arguments are
the canonical URL. -/
def candidateHash (title url : Str) : Option Str :=
  (normalizeURL url).map fun norm => generateHash title norm norm

/-- URL-uniqueness across the Article table (the `uniqueIndex` on URL). -/
def urlsUnique (db : List Article) : Prop :=
  db.Pairwise fun a b => a.url ≠ b.url

/-- Hash-uniqueness across the Article table (the `uniqueIndex` on Hash). -/
def hashesUnique (db : List Article) : Prop :=
  db.Pairwise fun a b => a.hash ≠ b.hash

/- ### Refresher (main.go 137-172) -/

/-- The refresh job's candidate selection:
`last_scraped_at < now-24h AND retry_count < 3`. -/
def refreshSelect (now : Int) (db : List Article) : List Article :=
  db.filter fun a => a.lastScrapedAt < now - 86400 && a.retryCount < 3

/-- The effect of one refresh firing on one row, with `fetch` the body
re-fetch (`getArticleBody`, which yields `""` on any fetch error): selected
rows whose re-fetched body is non-empty and differs from the stored body get
body, last_scraped_at and retry_count+1 written; all other rows are left
untouched. -/
def refreshStep (fetch : Str → Str) (now : Int) (a : Article) : Article :=
  if a.lastScrapedAt < now - 86400 && a.retryCount < 3 then
    let newBody := fetch a.url
    if newBody ≠ [] && newBody ≠ a.body then
      { a with body := newBody, lastScrapedAt := now,
               retryCount := a.retryCount + 1 }
    else a
  else a

/-- One refresh firing over the whole table. -/
def refreshJob (fetch : Str → Str) (now : Int) (db : List Article) :
    List Article :=
  db.map (refreshStep fetch now)

/-- Any sequence of future refresh firings applied to one row. -/
def refreshFirings (fs : List ((Str → Str) × Int)) (a : Article) : Article :=
  fs.foldl (fun x p => refreshStep p.1 p.2 x) a

/- ### Hourly digest (part_002 321-420) -/

/-- Descending insertion into a list sorted by published_at descending. -/
def insertDesc (a : Article) : List Article → List Article
  | [] => [a]
  | b :: bs =>
      if b.publishedAt ≤ a.publishedAt then a :: b :: bs
      else b :: insertDesc a bs

/-- Sort by published_at descending (the ORDER BY of the digest query). -/
def sortDesc : List Article → List Article
  | [] => []
  | a :: as => insertDesc a (sortDesc as)

/-- The digest query of buildHourlyEmbed (part_002 344-351):
`published_at >= now-1h ORDER BY published_at DESC`. -/
def recentArticles (now : Int) (db : List Article) : List Article :=
  sortDesc (db.filter fun a => now - 3600 ≤ a.publishedAt)

/-- `totalPages` (part_002 326-332). -/
def totalPages (n perPage : Nat) : Nat :=
  let pages := n / perPage
  if n % perPage ≠ 0 then pages + 1 else pages

/-- The page a digest render shows: clamped page number, total page count
and the rendered slice. -/
structure HourlyView where
  page : Int
  total : Nat
  items : List Article
  deriving DecidableEq, Repr

/-- The data selection of `buildHourlyEmbed` (part_002 343-385): the
trailing-hour window, `total := (n+8-1)/8`, clamping of the requested page
into [1,total], and the slice `recent[start:end]`; `none` is the early nil
return on an empty window. -/
def buildHourlyEmbed (db : List Article) (now : Int) (page : Int) :
    Option HourlyView :=
  let recent := recentArticles now db
  if recent.isEmpty then none
  else
    let total : Nat := (recent.length + 8 - 1) / 8
    let p : Int :=
      if page < 1 then 1
      else if page > (total : Int) then (total : Int)
      else page
    let start : Nat := ((p - 1) * 8).toNat
    let en : Nat :=
      if start + 8 > recent.length then recent.length else start + 8
    some { page := p, total := total,
           items := (recent.drop start).take (en - start) }

/- ### Urgent notification path (main.go 527-594) -/

/-- An input record of processUrgentNotifications: the loosely-typed map
with the fields the urgent path asserts on (a missing or differently-typed
key is `none`). -/
structure URec where
  isUrgent : Option Bool
  title : Option Str
  url : Option Str
  stockCode : Option Str
  category : Option Str
  body : Option Str
  date : Option Str
  deriving DecidableEq, Repr

/-- One rendered urgent embed (the fields of the claim). -/
structure UMsg where
  title : Str
  url : Str
  description : Str
  date : Str
  deriving DecidableEq, Repr

/-- The Description of the urgent embed (main.go 576-579):
"**銘柄コード**: %s\n**カテゴリ**: %s\n**本文**:\n%s" with the body
truncated to the fixed 1000-byte budget. -/
def urgentDescription (stockCode category truncatedBody : Str) : Str :=
  lit "**銘柄コード**: " ++ stockCode ++ lit "\n**カテゴリ**: " ++ category ++
  lit "\n**本文**:\n" ++ truncatedBody

/-- The per-record body of processUrgentNotifications' loop
(main.go 533-593): records not explicitly flagged urgent are skipped, as are
records failing the title/url/stockCode/category assertions; body and date
fall back to fixed placeholders. -/
def renderUrgent (r : URec) : Option UMsg :=
  if ¬(r.isUrgent.getD false) then none
  else
    match r.title, r.url, r.stockCode, r.category with
    | some t, some u, some sc, some cat =>
        let body := r.body.getD (lit "本文がありません")
        let date := r.date.getD (lit "日時不明")
        match truncateString body 1000 with
        | none => none
        | some tb =>
            some { title := t, url := u,
                   description := urgentDescription sc cat tb, date := date }
    | _, _, _, _ => none

/-- `processUrgentNotifications` (main.go 527-594): the destination channel
is the configured urgent channel, falling back to the default alert channel
when none is configured; every message of the pass goes there. -/
def processUrgentNotifications (urgentChannel alertChannel : Str)
    (data : List URec) : Str × List UMsg :=
  (if urgentChannel = [] then alertChannel else urgentChannel,
   data.filterMap renderUrgent)

/- ### Canonical output shape (for the idempotence analysis) -/

/-- Reassembly of normalizeURL's output from its components. -/
def assembleURL (s h p q : Str) : Str :=
  s ++ lit "://" ++ h ++ p ++ (if q = [] then [] else 63 :: q)

def schemeByteOK (b : Nat) : Bool := isLowerAlpha b

def hostByteOK (b : Nat) : Bool := isAlpha b || isDigit b || b = 46 || b = 45

def pathByteOK (b : Nat) : Bool :=
  32 ≤ b && b < 256 && b ≠ 37 && b ≠ 35 && b ≠ 63 && b ≠ 127

def queryByteOK (b : Nat) : Bool := 32 ≤ b && b < 256 && b ≠ 35 && b ≠ 127

/-- A clean absolute URL `scheme://host path [?query]`: lowercase alphabetic
scheme, host of letters/digits/dots/hyphens, a path that is empty or
`/`-rooted and free of `%` `#` `?` and control bytes, and a query free of
`#` and control bytes. -/
def canonicalShape (s h p q : Str) : Bool :=
  s ≠ [] && s.all schemeByteOK && h.all hostByteOK &&
  (p = [] || hasPref [47] p) && p.all pathByteOK && q.all queryByteOK

/- ### Concrete sample data used by the witnesses -/

/-- A stand-in RFC3339 parser instance; every pass theorem is uniform in the
actual parser. -/
def sampleParseDate : Str → Option Int := fun _ => some 0

def kbRawEsc : Str := lit "https://kabutan.jp/news/%41"

def kbRawPlain : Str := lit "https://kabutan.jp/news/A"

/-- An Article row with the canonical URL of the sample candidates. -/
def artA : Article :=
  { title := lit "T", url := kbRawPlain, hash := lit "h0",
    content := [], body := [], summary := [], category := lit "市場速報",
    publishedAt := 0, createdAt := 0, updatedAt := 0, lastScrapedAt := 0,
    retryCount := 0 }

/-- A well-formed candidate whose canonical URL equals artA's URL. -/
def candA : KCand :=
  { date := some (lit "2024-01-01T00:00:00Z"),
    category := some (lit "市場速報"), title := some (lit "T"),
    url := some kbRawPlain }

/-- An article published at time `t` (for the digest instances). -/
def mkTimed (t : Int) : Article :=
  { title := lit "t", url := lit "u", hash := lit "h", content := [],
    body := [], summary := [], category := [], publishedAt := t,
    createdAt := 0, updatedAt := 0, lastScrapedAt := 0, retryCount := 0 }

/-- An article whose retry_count has reached the bound 3. -/
def artR3 : Article :=
  { title := lit "t", url := lit "u", hash := lit "h", content := [],
    body := lit "old", summary := [], category := [], publishedAt := 0,
    createdAt := 0, updatedAt := 0, lastScrapedAt := 0, retryCount := 3 }

/-- A stale article still below the retry bound. -/
def artStale : Article :=
  { title := lit "t", url := lit "u", hash := lit "h", content := [],
    body := lit "old", summary := [], category := [], publishedAt := 0,
    createdAt := 0, updatedAt := 0, lastScrapedAt := 0, retryCount := 1 }

/-- An IR record not flagged urgent. -/
def urecPlain : URec :=
  { isUrgent := some false, title := some (lit "T"), url := some (lit "u"),
    stockCode := some (lit "7203"), category := some (lit "決算"),
    body := some (lit "b"), date := some (lit "2024-01-01T00:00:00Z") }

/-- A canonical-form URL for the idempotence witness. -/
def urlSample : Str := lit "https://kabutan.jp/news/marketnews/?market=1"

/- ### Theorems -/

/-- Claim C10: generateHash is the hex-encoded SHA-256 of the byte
concatenation title ++ rawURL ++ normalizedURL with no separators, so any
two argument triples with equal concatenations receive the same hash. -/
theorem generateHash_is_concat_digest (t₁ r₁ n₁ t₂ r₂ n₂ : Str)
    (h : t₁ ++ r₁ ++ n₁ = t₂ ++ r₂ ++ n₂) :
    generateHash t₁ r₁ n₁ = hexEncode (sha256 (t₁ ++ r₁ ++ n₁)) ∧
    generateHash t₁ r₁ n₁ = generateHash t₂ r₂ n₂ := by
  refine ⟨rfl, ?_⟩
  unfold generateHash
  rw [h]

/-- Witness for C10 at the split ("ab","c",·) vs ("a","bc",·). -/
theorem generateHash_is_concat_digest_witness :
    generateHash (lit "ab") (lit "c") (lit "n") =
      generateHash (lit "a") (lit "bc") (lit "n") :=
  (generateHash_is_concat_digest (lit "ab") (lit "c") (lit "n")
    (lit "a") (lit "bc") (lit "n") (by decide)).2

/-- Claim C9 counterexample: at budget max = -1 the Go code evaluates
`s[:max]` and panics with a slice-bounds error (modelled `none`), so no
truncated string is returned; the claim's "for every budget max" fails for
negative budgets. -/
theorem truncateString_negative_budget :
    truncateString (lit "a") (-1) = none := by decide

/-- Claim C9 (amended): for every string s and every non-negative budget
max, truncateString returns s unchanged when s is within the budget and
otherwise the first max bytes of s followed by the ellipsis marker "...";
the urgent-notification path applies it to the body with budget 1000
(a budget at which it always succeeds).  Negative budgets panic. -/
theorem truncateString_spec (s : Str) (max : Int) (hmax : 0 ≤ max) :
    ((s.length : Int) ≤ max → truncateString s max = some s) ∧
    (max < (s.length : Int) →
      truncateString s max = some (s.take max.toNat ++ lit "...")) ∧
    (truncateString s 1000).isSome ∧
    (∀ t u sc cat d,
      renderUrgent { isUrgent := some true, title := some t, url := some u,
                     stockCode := some sc, category := some cat,
                     body := some s, date := some d } =
        (truncateString s 1000).map fun tb =>
          { title := t, url := u, description := urgentDescription sc cat tb,
            date := d }) := by
  refine ⟨fun h => by simp [truncateString, h], fun h => ?_, ?_, ?_⟩
  · have h1 : ¬((s.length : Int) ≤ max) := by omega
    simp [truncateString, h1, hmax]
  · by_cases h : (s.length : Int) ≤ 1000 <;>
      simp [truncateString, h]
  · intro t u sc cat d
    simp only [renderUrgent, Option.getD_some, not_true_eq_false, if_false]
    cases htr : truncateString s 1000 <;> simp

/-- Witness for C9's amended theorem at s = "abcde", max = 3. -/
theorem truncateString_spec_witness :
    truncateString (lit "abcde") 3 =
      some ((lit "abcde").take (3 : Int).toNat ++ lit "...") :=
  (truncateString_spec (lit "abcde") 3 (by decide)).2.1 (by decide)

/-- Claim C8: records not explicitly flagged urgent produce no message
regardless of their other fields, and every message of the urgent path goes
to the configured urgent destination, falling back to the default alert
destination when the urgent one is the empty string. -/
theorem urgent_routing (uch ach : Str) (data : List URec) :
    (processUrgentNotifications uch ach data).1 =
      (if uch = [] then ach else uch) ∧
    (∀ r ∈ data, r.isUrgent ≠ some true → renderUrgent r = none) ∧
    (processUrgentNotifications uch ach data).2 = data.filterMap renderUrgent := by
  refine ⟨rfl, ?_, rfl⟩
  intro r _ hr
  unfold renderUrgent
  cases hu : r.isUrgent with
  | none => simp
  | some b =>
      cases b with
      | false => simp
      | true => exact absurd hu hr

/-- Witness for C8: empty urgent destination falls back to the alert
destination, and a non-urgent record is dropped. -/
theorem urgent_routing_witness :
    (processUrgentNotifications [] (lit "alert") [urecPlain]).1 =
      (if ([] : Str) = [] then lit "alert" else []) ∧
    renderUrgent urecPlain = none :=
  ⟨(urgent_routing [] (lit "alert") [urecPlain]).1,
   (urgent_routing [] (lit "alert") [urecPlain]).2.1 urecPlain
     (by simp) (by decide)⟩

/-- Claim C7: for a selected refresh candidate, an empty or unchanged
re-fetched body leaves every field of the row untouched; body,
last_scraped_at and retry_count (incremented by 1) are written exactly when
the fetch yields a non-empty body different from the stored one, and no
other field changes. -/
theorem refresh_frame (fetch : Str → Str) (now : Int) (a : Article)
    (hsel : a.lastScrapedAt < now - 86400 ∧ a.retryCount < 3) :
    ((fetch a.url = [] ∨ fetch a.url = a.body) → refreshStep fetch now a = a) ∧
    ((fetch a.url ≠ [] ∧ fetch a.url ≠ a.body) →
      refreshStep fetch now a =
        { a with body := fetch a.url, lastScrapedAt := now,
                 retryCount := a.retryCount + 1 }) := by
  constructor
  · intro h
    unfold refreshStep
    rcases h with h | h <;> simp [hsel.1, hsel.2, h]
  · intro h
    unfold refreshStep
    simp [hsel.1, hsel.2, h.1, h.2]

/-- Witness for C7: a stale row re-fetched with an unchanged body stays
untouched; with a fresh body the three fields are rewritten. -/
theorem refresh_frame_witness :
    refreshStep (fun _ => lit "old") 100000 artStale = artStale ∧
    refreshStep (fun _ => lit "new") 100000 artStale =
      { artStale with body := lit "new", lastScrapedAt := 100000,
                      retryCount := artStale.retryCount + 1 } :=
  ⟨(refresh_frame (fun _ => lit "old") 100000 artStale
      (by constructor <;> decide)).1 (Or.inr (by decide)),
   (refresh_frame (fun _ => lit "new") 100000 artStale
      (by constructor <;> decide)).2 (by constructor <;> decide)⟩

/-- Claim C6: a row whose retry_count has reached the bound 3 is never
returned by the refresh job's candidate selection and is never mutated by
any future refresh firing, regardless of its last_scraped_at. -/
theorem retry_bound_permanent (db : List Article) (now : Int)
    (fetch : Str → Str) (fs : List ((Str → Str) × Int)) (a : Article)
    (h : 3 ≤ a.retryCount) :
    a ∉ refreshSelect now db ∧ refreshStep fetch now a = a ∧
    refreshFirings fs a = a := by
  have hstep : ∀ (f : Str → Str) (n : Int), refreshStep f n a = a := by
    intro f n
    unfold refreshStep
    have : ¬a.retryCount < 3 := by omega
    simp [this]
  refine ⟨?_, hstep fetch now, ?_⟩
  · intro hmem
    rw [refreshSelect, List.mem_filter] at hmem
    have := hmem.2
    simp only [decide_eq_true_eq, Bool.and_eq_true] at this
    omega
  · induction fs with
    | nil => rfl
    | cons p ps ih =>
        rw [refreshFirings] at ih ⊢
        rw [List.foldl_cons, hstep p.1 p.2]
        exact ih

/-- Witness for C6: the bound-3 row is excluded and survives a sequence of
two refresh firings unchanged. -/
theorem retry_bound_permanent_witness :
    artR3 ∉ refreshSelect 1000000 [artR3, artStale] ∧
    refreshStep (fun _ => lit "new") 1000000 artR3 = artR3 ∧
    refreshFirings [(fun _ => lit "x", 1000000), (fun _ => lit "y", 2000000)]
      artR3 = artR3 :=
  retry_bound_permanent [artR3, artStale] 1000000 (fun _ => lit "new")
    [(fun _ => lit "x", 1000000), (fun _ => lit "y", 2000000)] artR3 (by decide)

/-- Membership in a descending insertion. -/
theorem mem_insertDesc (a x : Article) (l : List Article) :
    a ∈ insertDesc x l ↔ a = x ∨ a ∈ l := by
  induction l with
  | nil => simp [insertDesc]
  | cons b bs ih =>
      unfold insertDesc
      by_cases hb : b.publishedAt ≤ x.publishedAt
      · simp [hb]
      · simp [hb, ih]
        tauto

/-- Membership under the digest sort. -/
theorem mem_sortDesc (a : Article) (l : List Article) :
    a ∈ sortDesc l ↔ a ∈ l := by
  induction l with
  | nil => simp [sortDesc]
  | cons b bs ih => simp [sortDesc, mem_insertDesc, ih]

/-- Descending insertion preserves descending order. -/
theorem insertDesc_pairwise (x : Article) (l : List Article)
    (h : l.Pairwise fun a b => b.publishedAt ≤ a.publishedAt) :
    (insertDesc x l).Pairwise fun a b => b.publishedAt ≤ a.publishedAt := by
  induction l with
  | nil => simp [insertDesc]
  | cons b bs ih =>
      rw [List.pairwise_cons] at h
      unfold insertDesc
      by_cases hb : b.publishedAt ≤ x.publishedAt
      · rw [if_pos hb, List.pairwise_cons]
        refine ⟨?_, List.pairwise_cons.mpr h⟩
        intro y hy
        rcases List.mem_cons.mp hy with hy | hy
        · exact hy ▸ hb
        · exact le_trans (h.1 y hy) hb
      · rw [if_neg hb, List.pairwise_cons]
        refine ⟨?_, ih h.2⟩
        intro y hy
        rcases (mem_insertDesc y x bs).mp hy with hy | hy
        · exact hy ▸ le_of_not_le hb
        · exact h.1 y hy

/-- The digest sort produces a descending list. -/
theorem sortDesc_pairwise (l : List Article) :
    (sortDesc l).Pairwise fun a b => b.publishedAt ≤ a.publishedAt := by
  induction l with
  | nil => simp [sortDesc]
  | cons b bs ih => exact insertDesc_pairwise b (sortDesc bs) ih

/-- Claim C5: the digest window holds exactly the Articles whose
published_at is within the trailing hour at render time, ordered by
published_at descending; concretely, items published 10 and 40 minutes ago
appear in that order while an item from 70 minutes ago is excluded. -/
theorem digest_window (db : List Article) (now : Int) :
    (∀ a, a ∈ recentArticles now db ↔
      a ∈ db ∧ now - 3600 ≤ a.publishedAt) ∧
    (recentArticles now db).Pairwise
      (fun a b => b.publishedAt ≤ a.publishedAt) ∧
    recentArticles now
        [mkTimed (now - 2400), mkTimed (now - 600), mkTimed (now - 4200)] =
      [mkTimed (now - 600), mkTimed (now - 2400)] := by
  refine ⟨?_, sortDesc_pairwise _, ?_⟩
  · intro a
    rw [recentArticles, mem_sortDesc, List.mem_filter]
    simp
  · have h1 : (decide (now - 3600 ≤ (mkTimed (now - 2400)).publishedAt)) = true := by
      simp [mkTimed]; omega
    have h2 : (decide (now - 3600 ≤ (mkTimed (now - 600)).publishedAt)) = true := by
      simp [mkTimed]; omega
    have h3 : (decide (now - 3600 ≤ (mkTimed (now - 4200)).publishedAt)) = false := by
      simp [mkTimed]; omega
    have h4 : ¬(mkTimed (now - 600)).publishedAt ≤ (mkTimed (now - 2400)).publishedAt := by
      simp [mkTimed]; omega
    rw [recentArticles]
    rw [List.filter_cons, List.filter_cons, List.filter_cons]
    rw [h1, h2, h3]
    simp only [List.filter_nil, if_true, if_false]
    simp only [sortDesc, insertDesc, if_neg h4]

/-- Claim C4: for a non-empty window, the digest render computes
totalPages = ceil(n/8), clamps the requested page to
min(max(page,1), totalPages), and renders exactly the 8-element slice
starting at (page-1)*8 of the window list. -/
theorem hourly_pagination (db : List Article) (now page : Int)
    (h : recentArticles now db ≠ []) :
    totalPages (recentArticles now db).length 8 =
      ((recentArticles now db).length + 8 - 1) / 8 ∧
    buildHourlyEmbed db now page =
      some { page := min (max page 1)
                       ((totalPages (recentArticles now db).length 8 : Nat) : Int),
             total := totalPages (recentArticles now db).length 8,
             items :=
               ((recentArticles now db).drop
                   ((min (max page 1)
                       ((totalPages (recentArticles now db).length 8 : Nat) : Int)
                     - 1) * 8).toNat).take 8 } := by
  simp only [buildHourlyEmbed]
  rw [if_neg (by simpa [List.isEmpty_iff] using h)]
  set r := recentArticles now db with hr
  set n := r.length with hn
  have hn1 : 1 ≤ n := List.length_pos.mpr h
  have htp : totalPages n 8 = (n + 8 - 1) / 8 := by
    unfold totalPages
    by_cases hmod : n % 8 = 0 <;> simp [hmod] <;> omega
  refine ⟨htp, ?_⟩
  have hT1 : 1 ≤ (n + 8 - 1) / 8 := by omega
  have hclamp :
      (if page < 1 then 1
       else if page > (((n + 8 - 1) / 8 : Nat) : Int) then (((n + 8 - 1) / 8 : Nat) : Int)
       else page) =
      min (max page 1) ((totalPages n 8 : Nat) : Int) := by
    rw [htp]
    split_ifs <;> omega
  rw [hclamp]
  set p := min (max page 1) ((totalPages n 8 : Nat) : Int) with hp
  have hp1 : 1 ≤ p := by
    rw [hp, htp]; omega
  have hpT : p ≤ (((n + 8 - 1) / 8 : Nat) : Int) := by
    rw [hp, htp]; omega
  have hstart : ((p - 1) * 8).toNat ≤ n - 1 := by
    have h8 : (p - 1) * 8 ≤ ((((n + 8 - 1) / 8 : Nat) : Int) - 1) * 8 := by
      have := hpT
      nlinarith
    omega
  simp only [Option.some.injEq, HourlyView.mk.injEq]
  refine ⟨trivial, htp.symm, ?_⟩
  by_cases hend : ((p - 1) * 8).toNat + 8 > n
  · rw [if_pos hend]
    have hlen : (r.drop (((p - 1) * 8).toNat)).length = n - ((p - 1) * 8).toNat := by
      simp [hn]
    rw [List.take_of_length_le (by omega), List.take_of_length_le (by omega)]
  · rw [if_neg hend]
    congr 1
    omega

/-- Witness for C4: a 17-article window gives 3 pages, and requesting page 5
clamps to page 3. -/
theorem hourly_pagination_witness :
    totalPages (recentArticles 0 (List.replicate 17 (mkTimed 0))).length 8 =
      ((recentArticles 0 (List.replicate 17 (mkTimed 0))).length + 8 - 1) / 8 ∧
    buildHourlyEmbed (List.replicate 17 (mkTimed 0)) 0 5 =
      some { page := min (max 5 1)
               ((totalPages (recentArticles 0 (List.replicate 17 (mkTimed 0))).length 8 : Nat) : Int),
             total := totalPages (recentArticles 0 (List.replicate 17 (mkTimed 0))).length 8,
             items :=
               ((recentArticles 0 (List.replicate 17 (mkTimed 0))).drop
                   ((min (max 5 1)
                       ((totalPages (recentArticles 0 (List.replicate 17 (mkTimed 0))).length 8 : Nat) : Int)
                     - 1) * 8).toNat).take 8 } :=
  hourly_pagination (List.replicate 17 (mkTimed 0)) 0 5 (by decide)

/-- One step of the extraction pass preserves the uniqueness invariants of
the Article table. -/
theorem scrapeStep_preserves (pd : Str → Option Int)
    (st : List Article × List KCand) (c : KCand)
    (h1 : urlsUnique st.1) (h2 : hashesUnique st.1) :
    urlsUnique (scrapeStep pd st c).1 ∧ hashesUnique (scrapeStep pd st c).1 := by
  obtain ⟨cd, cc, ct, cu⟩ := c
  unfold scrapeStep
  split
  · exact ⟨h1, h2⟩
  cases ct with
  | none => exact ⟨h1, h2⟩
  | some t =>
  cases cc with
  | none => exact ⟨h1, h2⟩
  | some cat =>
  cases cd with
  | none => exact ⟨h1, h2⟩
  | some d =>
  cases cu with
  | none => exact ⟨h1, h2⟩
  | some u0 =>
  dsimp only
  cases hnorm : normalizeURL u0 with
  | none => exact ⟨h1, h2⟩
  | some norm =>
  dsimp only
  split
  · exact ⟨h1, h2⟩
  next hany =>
  split
  · exact ⟨h1, h2⟩
  next pub _ =>
  simp only [List.any_eq_true, not_exists, not_and] at hany
  have hall : ∀ a ∈ st.1,
      a.url ≠ norm ∧ a.hash ≠ generateHash t norm norm := by
    intro a ha
    have := hany a ha
    simp only [Bool.or_eq_true, decide_eq_true_eq] at this
    push_neg at this
    exact this
  constructor
  · rw [urlsUnique, List.pairwise_append]
    refine ⟨h1, by simp [urlsUnique], ?_⟩
    intro a ha b hb
    rcases List.mem_singleton.mp hb with rfl
    simpa [mkArticle] using (hall a ha).1
  · rw [hashesUnique, List.pairwise_append]
    refine ⟨h2, by simp [hashesUnique], ?_⟩
    intro a ha b hb
    rcases List.mem_singleton.mp hb with rfl
    simpa [mkArticle] using (hall a ha).2

/-- Folding the extraction pass over any candidate list preserves the
uniqueness invariants. -/
theorem scrapeFold_preserves (pd : Str → Option Int) (cands : List KCand) :
    ∀ st : List Article × List KCand, urlsUnique st.1 → hashesUnique st.1 →
      urlsUnique (cands.foldl (scrapeStep pd) st).1 ∧
      hashesUnique (cands.foldl (scrapeStep pd) st).1 := by
  induction cands with
  | nil => exact fun st h1 h2 => ⟨h1, h2⟩
  | cons c cs ih =>
      intro st h1 h2
      rw [List.foldl_cons]
      have := scrapeStep_preserves pd st c h1 h2
      exact ih (scrapeStep pd st c) this.1 this.2

/-- Claim C2: a candidate whose canonical URL or identity hash matches an
Article already in Persistence changes nothing — no row is inserted and the
candidate is not appended to the list handed to the notifier — and
consequently URL-uniqueness and Hash-uniqueness of the Article table are
preserved by every extraction pass. -/
theorem dedup_gate (pd : Str → Option Int) (db : List Article)
    (out : List KCand) (c : KCand) (t u0 norm : Str)
    (ht : c.title = some t) (hu : c.url = some u0)
    (hn : normalizeURL u0 = some norm)
    (hdup : ∃ a ∈ db, a.url = norm ∨ a.hash = generateHash t norm norm) :
    scrapeStep pd (db, out) c = (db, out) ∧
    ∀ (db0 : List Article) (cands : List KCand),
      urlsUnique db0 → hashesUnique db0 →
      urlsUnique (scrapePass pd db0 cands).1 ∧
      hashesUnique (scrapePass pd db0 cands).1 := by
  constructor
  · by_cases hreq : hasRequiredFields pd c = true
    · obtain ⟨cat, hcat⟩ : ∃ cat, c.category = some cat := by
        rcases hc : c.category with _ | cat
        · rw [hasRequiredFields, hc] at hreq
          simp at hreq
        · exact ⟨cat, rfl⟩
      obtain ⟨d, hd⟩ : ∃ d, c.date = some d := by
        rcases hc : c.date with _ | d
        · rw [hasRequiredFields, hc] at hreq
          simp at hreq
        · exact ⟨d, rfl⟩
      have hany : (db.any fun a =>
          a.url = norm || a.hash = generateHash t norm norm) = true := by
        rcases hdup with ⟨a, ha, hor⟩
        refine List.any_eq_true.mpr ⟨a, ha, ?_⟩
        rcases hor with h | h <;> simp [h]
      unfold scrapeStep
      rw [if_neg (by simp [hreq]), ht, hcat, hd, hu]
      dsimp only
      rw [hn]
      dsimp only
      rw [if_pos hany]
    · unfold scrapeStep
      rw [if_pos (by simp [hreq])]
  · intro db0 cands h1 h2
    exact scrapeFold_preserves pd cands (db0, []) h1 h2

/-- Witness for C2: a candidate whose canonical URL equals the URL of the
stored sample row is dropped, and the pass keeps the table unique. -/
theorem dedup_gate_witness :
    scrapeStep sampleParseDate ([artA], []) candA = ([artA], []) ∧
    urlsUnique (scrapePass sampleParseDate [artA] [candA]).1 ∧
    hashesUnique (scrapePass sampleParseDate [artA] [candA]).1 :=
  ⟨(dedup_gate sampleParseDate [artA] [] candA (lit "T") kbRawPlain kbRawPlain
      rfl rfl (by decide)
      ⟨artA, List.mem_singleton.mpr rfl, Or.inl rfl⟩).1,
   (dedup_gate sampleParseDate [artA] [] candA (lit "T") kbRawPlain kbRawPlain
      rfl rfl (by decide)
      ⟨artA, List.mem_singleton.mpr rfl, Or.inl rfl⟩).2 [artA] [candA]
     (by simp [urlsUnique]) (by simp [hashesUnique])⟩

/-- Claim C1 counterexample: two candidates share the title "T" and the
canonical URL https://kabutan.jp/news/A but differ in their raw URLs
(.../%41 vs .../A); the extraction pass computes EQUAL hashes for them —
not different ones — because `article["url"] = norm` overwrites the raw URL
before `generateHash(title, article["url"], norm)` runs, so the digest
never sees the raw URL. -/
theorem pass_hash_ignores_raw_url :
    kbRawEsc ≠ kbRawPlain ∧
    normalizeURL kbRawEsc = some kbRawPlain ∧
    normalizeURL kbRawPlain = some kbRawPlain ∧
    candidateHash (lit "T") kbRawEsc = candidateHash (lit "T") kbRawPlain := by
  refine ⟨by decide, by decide, by decide, ?_⟩
  unfold candidateHash
  rw [show normalizeURL kbRawEsc = some kbRawPlain from by decide,
      show normalizeURL kbRawPlain = some kbRawPlain from by decide]

/-- Claim C1 (amended): the identity hash computed in an extraction pass is
a digest of the tuple (title, canonical URL, canonical URL) — the raw URL
slot receives the canonical URL because the candidate's url field is
overwritten before hashing — so two candidates with the same title and the
same canonical URL always receive the SAME hash, even when their raw URLs
differ. -/
theorem pass_hash_canonical (t u1 u2 n : Str)
    (h1 : normalizeURL u1 = some n) (h2 : normalizeURL u2 = some n) :
    candidateHash t u1 = some (generateHash t n n) ∧
    candidateHash t u1 = candidateHash t u2 := by
  unfold candidateHash
  rw [h1, h2]
  exact ⟨rfl, rfl⟩

/-- Witness for C1's amended theorem at the two sample raw URLs. -/
theorem pass_hash_canonical_witness :
    candidateHash (lit "T") kbRawEsc =
      some (generateHash (lit "T") kbRawPlain kbRawPlain) :=
  (pass_hash_canonical (lit "T") kbRawEsc kbRawPlain kbRawPlain
    (by decide) (by decide)).1

/-- Claim C3 counterexample: normalizeURL succeeds on the parseable relative
URL "foo" and returns "://foo", but applying normalizeURL to that output
fails ("missing protocol scheme"), so normalizeURL(normalizeURL(u)) neither
succeeds nor equals normalizeURL(u) for every u on which normalizeURL
succeeds. -/
theorem normalizeURL_not_idempotent :
    normalizeURL (lit "foo") = some (lit "://foo") ∧
    normalizeURL (lit "://foo") = none := by
  exact ⟨by decide, by decide⟩

/-- A byte of a clean scheme is not a control byte, "#", "?", "/" or ":". -/
theorem schemeByte_facts (b : Nat) (h : schemeByteOK b = true) :
    97 ≤ b ∧ b ≤ 122 := by
  simpa [schemeByteOK, isLowerAlpha] using h

/-- A clean host byte is alphanumeric, "." or "-". -/
theorem hostByte_facts (b : Nat) (h : hostByteOK b = true) :
    (48 ≤ b ∧ b ≤ 57) ∨ (65 ≤ b ∧ b ≤ 90) ∨ (97 ≤ b ∧ b ≤ 122) ∨
    b = 46 ∨ b = 45 := by
  simp only [hostByteOK, isAlpha, isUpperAlpha, isLowerAlpha, isDigit,
    Bool.or_eq_true, Bool.and_eq_true, decide_eq_true_eq] at h
  tauto

/-- A clean path byte is printable and none of "%", "#", "?". -/
theorem pathByte_facts (b : Nat) (h : pathByteOK b = true) :
    32 ≤ b ∧ b < 256 ∧ b ≠ 37 ∧ b ≠ 35 ∧ b ≠ 63 ∧ b ≠ 127 := by
  simp only [pathByteOK, Bool.and_eq_true, decide_eq_true_eq] at h
  tauto

/-- A clean query byte is printable and not "#". -/
theorem queryByte_facts (b : Nat) (h : queryByteOK b = true) :
    32 ≤ b ∧ b < 256 ∧ b ≠ 35 ∧ b ≠ 127 := by
  simp only [queryByteOK, Bool.and_eq_true, decide_eq_true_eq] at h
  tauto

/-- cutByte finds nothing when the byte does not occur. -/
theorem cutByte_not_mem (b : Nat) (s : Str) (h : b ∉ s) :
    cutByte b s = (s, [], false) := by
  induction s with
  | nil => rfl
  | cons c cs ih =>
      unfold cutByte
      rw [if_neg (by rintro rfl; exact h (List.mem_cons_self c cs))]
      rw [ih (fun hm => h (List.mem_cons_of_mem c hm))]

/-- cutByte splits at the first occurrence. -/
theorem cutByte_split (b : Nat) (s1 s2 : Str) (h : b ∉ s1) :
    cutByte b (s1 ++ b :: s2) = (s1, s2, true) := by
  induction s1 with
  | nil => simp [cutByte]
  | cons c cs ih =>
      rw [List.cons_append]
      unfold cutByte
      rw [if_neg (by rintro rfl; exact h (List.mem_cons_self c cs))]
      rw [ih (fun hm => h (List.mem_cons_of_mem c hm))]

/-- lastIndexByte finds nothing when the byte does not occur. -/
theorem lastIndexByte_not_mem (b : Nat) (s : Str) (h : b ∉ s) :
    lastIndexByte b s = none := by
  induction s with
  | nil => rfl
  | cons c cs ih =>
      unfold lastIndexByte
      rw [ih (fun hm => h (List.mem_cons_of_mem c hm))]
      rw [if_neg (by rintro rfl; exact h (List.mem_cons_self c cs))]

/-- indexOfByte finds nothing when the byte does not occur. -/
theorem indexOfByte_not_mem (b : Nat) (s : Str) (h : b ∉ s) :
    indexOfByte b s = none := by
  induction s with
  | nil => rfl
  | cons c cs ih =>
      unfold indexOfByte
      rw [if_neg (by rintro rfl; exact h (List.mem_cons_self c cs))]
      rw [ih (fun hm => h (List.mem_cons_of_mem c hm))]
      rfl

/-- indexOfByte on an append whose second part starts with the byte. -/
theorem indexOfByte_append (b : Nat) (s1 s2 : Str) (h : b ∉ s1) :
    indexOfByte b (s1 ++ b :: s2) = some s1.length := by
  induction s1 with
  | nil => simp [indexOfByte]
  | cons c cs ih =>
      rw [List.cons_append]
      unfold indexOfByte
      rw [if_neg (by rintro rfl; exact h (List.mem_cons_self c cs))]
      rw [ih (fun hm => h (List.mem_cons_of_mem c hm))]
      simp

/-- containsByte agrees with membership. -/
theorem containsByte_iff (b : Nat) (s : Str) :
    containsByte b s = true ↔ b ∈ s := by
  simp only [containsByte, List.any_eq_true, decide_eq_true_eq]
  constructor
  · rintro ⟨x, hx, rfl⟩
    exact hx
  · exact fun h => ⟨b, h, rfl⟩

/-- hasSuf of a singleton implies membership. -/
theorem hasSuf_single_mem (b : Nat) (s : Str) (h : hasSuf s [b] = true) :
    b ∈ s := by
  simp only [hasSuf, Bool.and_eq_true, decide_eq_true_eq] at h
  have := h.2
  have hmem : b ∈ s.drop (s.length - 1) := by
    have h1 : s.length - [b].length = s.length - 1 := by simp
    rw [← h1, this]
    exact List.mem_singleton.mpr rfl
  exact List.mem_of_mem_drop hmem

/-- getScheme consumes a lowercase alphabetic scheme up to the colon. -/
theorem getSchemeAux_lower (orig r : Str) :
    ∀ (s acc : Str), acc ≠ [] → (∀ b ∈ s, isLowerAlpha b = true) →
      getSchemeAux orig acc (s ++ 58 :: r) = some (acc ++ s, r) := by
  intro s
  induction s with
  | nil =>
      intro acc hacc _
      rw [List.nil_append]
      unfold getSchemeAux
      rw [if_neg (by decide), if_neg (by decide), if_pos rfl, if_neg hacc,
        List.append_nil]
  | cons c cs ih =>
      intro acc hacc hall
      have hc : isLowerAlpha c = true := hall c (List.mem_cons_self c cs)
      have hca : isAlpha c = true := by
        simp [isAlpha, hc]
      rw [List.cons_append]
      unfold getSchemeAux
      rw [if_pos hca]
      rw [ih (acc ++ [c]) (by simp) (fun b hb => hall b (List.mem_cons_of_mem c hb))]
      simp

/-- getScheme on scheme ++ ":" ++ rest. -/
theorem getScheme_split (s r : Str) (hs : s ≠ [])
    (hall : ∀ b ∈ s, isLowerAlpha b = true) :
    getScheme (s ++ 58 :: r) = some (s, r) := by
  rcases s with _ | ⟨c, cs⟩
  · exact absurd rfl hs
  · have hc : isLowerAlpha c = true := hall c (List.mem_cons_self c cs)
    have hca : isAlpha c = true := by simp [isAlpha, hc]
    rw [getScheme, List.cons_append]
    unfold getSchemeAux
    rw [if_pos hca]
    simp only [List.nil_append]
    rw [getSchemeAux_lower _ r cs [c] (by simp)
      (fun b hb => hall b (List.mem_cons_of_mem c hb))]
    simp

/-- Lowercasing fixes an already-lowercase string. -/
theorem toLower_fixed (s : Str) (h : ∀ b ∈ s, isLowerAlpha b = true) :
    toLower s = s := by
  induction s with
  | nil => rfl
  | cons c cs ih =>
      have hc := h c (List.mem_cons_self c cs)
      simp only [isLowerAlpha, Bool.and_eq_true, decide_eq_true_eq] at hc
      unfold toLower at ih ⊢
      rw [List.map_cons, ih (fun b hb => h b (List.mem_cons_of_mem c hb))]
      have : toLowerByte c = c := by
        unfold toLowerByte isUpperAlpha
        rw [if_neg]
        simp only [Bool.and_eq_true, decide_eq_true_eq]
        omega
      rw [this]

/-- queryCut when no "?" occurs. -/
theorem queryCut_none (rest : Str) (h : 63 ∉ rest) :
    queryCut rest = (rest, [], false) := by
  unfold queryCut
  rw [if_neg, cutByte_not_mem 63 rest h]
  intro hc
  rw [Bool.and_eq_true] at hc
  exact h (hasSuf_single_mem 63 rest hc.1)

/-- queryCut splits at the separator "?" when the query is non-empty. -/
theorem queryCut_split (a q : Str) (ha : 63 ∉ a) (hq : q ≠ []) :
    queryCut (a ++ 63 :: q) = (a, q, false) := by
  unfold queryCut
  rw [if_neg, cutByte_split 63 a q ha]
  intro hc
  rw [Bool.and_eq_true] at hc
  have hcontains : containsByte 63 (trimSuffix (a ++ 63 :: q) [63]) = true := by
    rw [containsByte_iff]
    unfold trimSuffix
    rw [if_pos hc.1]
    rcases List.exists_cons_of_ne_nil hq with ⟨q0, q', rfl⟩
    have hlen : (a ++ 63 :: q0 :: q').length - ([63] : Str).length =
        a.length + (q0 :: q').length := by
      simp only [List.length_append, List.length_cons, List.length_nil]
      omega
    rw [hlen, List.take_append]
    refine List.mem_append.mpr (Or.inr ?_)
    rw [List.length_cons, List.take_succ_cons]
    exact List.mem_cons_self _ _
  have hnc := hc.2
  simp only [decide_eq_true_eq] at hnc
  exact hnc hcontains

/-- shouldEscape never escapes alphanumerics. -/
theorem shouldEscape_alnum (c : Nat) (mode : EncMode)
    (h : (isAlpha c || isDigit c) = true) : shouldEscape c mode = false := by
  unfold shouldEscape
  rw [if_pos h]

/-- A clean host byte is not escaped in host context. -/
theorem shouldEscape_host_false (c : Nat) (h : hostByteOK c = true) :
    shouldEscape c EncMode.host = false := by
  rcases hostByte_facts c h with h' | h' | h' | h' | h'
  · exact shouldEscape_alnum c _ (by simp [isDigit]; omega)
  · exact shouldEscape_alnum c _ (by simp [isAlpha, isUpperAlpha]; omega)
  · exact shouldEscape_alnum c _ (by simp [isAlpha, isLowerAlpha]; omega)
  · subst h'; decide
  · subst h'; decide

/-- unescape is the identity in path contexts on %-free strings. -/
theorem unescape_id_path (mode : EncMode)
    (hm : mode = EncMode.path ∨ mode = EncMode.pathSegment) :
    ∀ s : Str, 37 ∉ s → unescape s mode = some s := by
  intro s
  induction s with
  | nil => intro _; rfl
  | cons c cs ih =>
      intro hmem
      have hc : c ≠ 37 := fun hc => hmem (hc ▸ List.mem_cons_self c cs)
      have hrec := ih (fun hm' => hmem (List.mem_cons_of_mem c hm'))
      unfold unescape
      rw [if_neg hc]
      by_cases h43 : c = 43
      · subst h43
        rw [if_pos rfl, hrec]
        rcases hm with rfl | rfl <;> simp
      · rw [if_neg h43, if_neg, hrec]
        · rfl
        · rcases hm with rfl | rfl <;> simp

/-- unescape is the identity on clean hosts. -/
theorem unescape_id_host (h : Str) (hall : ∀ b ∈ h, hostByteOK b = true) :
    unescape h EncMode.host = some h := by
  induction h with
  | nil => rfl
  | cons c cs ih =>
      have hcok := hall c (List.mem_cons_self c cs)
      have hc37 : c ≠ 37 := by
        rcases hostByte_facts c hcok with h' | h' | h' | h' | h' <;> omega
      have hc43 : c ≠ 43 := by
        rcases hostByte_facts c hcok with h' | h' | h' | h' | h' <;> omega
      have hrec := ih (fun b hb => hall b (List.mem_cons_of_mem c hb))
      unfold unescape
      rw [if_neg hc37, if_neg hc43, if_neg, hrec]
      · rfl
      · simp [shouldEscape_host_false c hcok]

/-- hexUp produces hex digits. -/
theorem ishex_hexUp : ∀ n < 16, ishex (hexUp n) = true := by decide

/-- unhex inverts hexUp on a byte split into nibbles. -/
theorem unhex_hexUp_byte :
    ∀ c < 256, unhex (hexUp (c / 16)) * 16 + unhex (hexUp (c % 16)) = c := by
  decide

/-- Escaping with the path table and unescaping in path-segment context
round-trips on byte strings. -/
theorem unescape_escape_path (p : Str) (hlt : ∀ b ∈ p, b < 256) :
    unescape (escape p EncMode.path) EncMode.pathSegment = some p := by
  induction p with
  | nil => rfl
  | cons c cs ih =>
      have hc := hlt c (List.mem_cons_self c cs)
      have hrec := ih (fun b hb => hlt b (List.mem_cons_of_mem c hb))
      have hesc : escape (c :: cs) EncMode.path =
          escapeByte c EncMode.path ++ escape cs EncMode.path := rfl
      rw [hesc]
      by_cases hse : shouldEscape c EncMode.path = true
      · have hbyte : escapeByte c EncMode.path =
            [37, hexUp (c / 16), hexUp (c % 16)] := by
          unfold escapeByte
          rw [if_pos hse, if_neg (by simp)]
        rw [hbyte, List.cons_append, List.cons_append, List.cons_append,
          List.nil_append]
        unfold unescape
        rw [if_pos rfl]
        dsimp only
        have hhex : (ishex (hexUp (c / 16)) && ishex (hexUp (c % 16))) = true := by
          rw [ishex_hexUp _ (by omega), ishex_hexUp _ (by omega)]
          rfl
        rw [if_pos hhex, if_neg (by simp), if_neg (by simp), hrec]
        simp [unhex_hexUp_byte c hc]
      · have hbyte : escapeByte c EncMode.path = [c] := by
          unfold escapeByte
          rw [if_neg hse]
        rw [hbyte, List.cons_append, List.nil_append]
        have hc37 : c ≠ 37 := by
          rintro rfl
          exact hse (by decide)
        unfold unescape
        rw [if_neg hc37]
        by_cases h43 : c = 43
        · subst h43
          rw [if_pos rfl, hrec]
          simp
        · rw [if_neg h43, if_neg (by simp), hrec]
          rfl

/-- EscapedPath followed by PathUnescape recovers a clean path. -/
theorem escapedPath_clean (u : GoURL) (p : Str) (hpath : u.path = p)
    (hraw : u.rawPath = [] ∨ u.rawPath = p)
    (hp : ∀ b ∈ p, pathByteOK b = true) :
    pathUnescape (escapedPath u) = some p := by
  have h37 : 37 ∉ p := by
    intro hm
    have := pathByte_facts 37 (hp 37 hm)
    omega
  have hlt : ∀ b ∈ p, b < 256 := fun b hb => (pathByte_facts b (hp b hb)).2.1
  have hdefault : pathUnescape (escapedPathDefault u) = some p := by
    unfold escapedPathDefault
    by_cases h42 : u.path = [42]
    · have : p = [42] := by rw [← hpath, h42]
      subst this
      rw [if_pos h42]
      exact unescape_id_path _ (Or.inr rfl) [42] (by decide)
    · rw [if_neg h42, hpath]
      exact unescape_escape_path p hlt
  unfold escapedPath
  by_cases hcond : (u.rawPath ≠ [] && validEncoded u.rawPath EncMode.path) = true
  · rw [if_pos hcond]
    have hrawp : u.rawPath = p := by
      rcases hraw with h | h
      · rw [Bool.and_eq_true] at hcond
        simp [h] at hcond
      · exact h
    rw [hrawp, unescape_id_path _ (Or.inl rfl) p h37]
    dsimp only
    rw [hpath, if_pos rfl]
    exact unescape_id_path _ (Or.inr rfl) p h37
  · rw [if_neg hcond]
    exact hdefault

/-- ReplaceAll("%3F" → "?") is the identity on %-free strings. -/
theorem replaceAllAux_id (n : Nat) :
    ∀ s : Str, 37 ∉ s → replaceAllAux (lit "%3F") (lit "?") n s = s := by
  induction n with
  | zero => intro s _; simp [replaceAllAux]
  | succ m ih =>
      intro s hmem
      rcases s with _ | ⟨c, cs⟩
      · rfl
      · have hc : c ≠ 37 := fun hc => hmem (hc ▸ List.mem_cons_self c cs)
        unfold replaceAllAux
        rw [if_neg, ih cs (fun hm => hmem (List.mem_cons_of_mem c hm))]
        have : hasPref (lit "%3F") (c :: cs) = false := by
          show hasPref (37 :: 51 :: 70 :: []) (c :: cs) = false
          unfold hasPref
          simp [Ne.symm hc]
        simp [this]

/-- ReplaceAll is the identity on %-free strings. -/
theorem replaceAll_id (s : Str) (h : 37 ∉ s) :
    replaceAll s (lit "%3F") (lit "?") = s :=
  replaceAllAux_id s.length s h

/-- setPath on a clean path stores it unchanged. -/
theorem setPathParts_clean (p : Str) (hp : ∀ b ∈ p, pathByteOK b = true) :
    setPathParts p =
      some (p, if escape p EncMode.path = p then [] else p) := by
  have h37 : 37 ∉ p := by
    intro hm
    have := pathByte_facts 37 (hp 37 hm)
    omega
  unfold setPathParts
  rw [unescape_id_path _ (Or.inl rfl) p h37]

/-- parseHost is the identity on clean hosts. -/
theorem parseHost_clean (h : Str) (hall : ∀ b ∈ h, hostByteOK b = true) :
    parseHost h = some h := by
  have h91 : hasPref [91] h = false := by
    rcases h with _ | ⟨c, cs⟩
    · rfl
    · have := hostByte_facts c (hall c (List.mem_cons_self c cs))
      unfold hasPref
      have hc : ¬(91 = c) := by omega
      simp [hc]
  have h58 : (58 : Nat) ∉ h := by
    intro hm
    have := hostByte_facts 58 (hall 58 hm)
    omega
  unfold parseHost
  rw [if_neg (by simp [h91])]
  rw [lastIndexByte_not_mem 58 h h58]
  exact unescape_id_host h hall

/-- parseAuthority is the identity on clean hosts (no userinfo). -/
theorem parseAuthority_clean (h : Str) (hall : ∀ b ∈ h, hostByteOK b = true) :
    parseAuthority h = some h := by
  have h64 : (64 : Nat) ∉ h := by
    intro hm
    have := hostByte_facts 64 (hall 64 hm)
    omega
  unfold parseAuthority
  rw [lastIndexByte_not_mem 64 h h64]
  exact parseHost_clean h hall

/-- parse() on a clean assembled absolute URL recovers its components. -/
theorem parseInner_assemble (s h p q : Str)
    (hs : s ≠ []) (hsall : ∀ b ∈ s, schemeByteOK b = true)
    (hh : ∀ b ∈ h, hostByteOK b = true)
    (hp0 : p = [] ∨ ∃ p', p = 47 :: p')
    (hp : ∀ b ∈ p, pathByteOK b = true)
    (hq : ∀ b ∈ q, queryByteOK b = true) :
    parseInner (assembleURL s h p q) =
      some { scheme := s, opq := [], host := h, path := p,
             rawPath := if escape p EncMode.path = p then [] else p,
             forceQuery := false, rawQuery := q, fragment := [] } := by
  have hS : ∀ b ∈ s, 97 ≤ b ∧ b ≤ 122 := fun b hb => schemeByte_facts b (hsall b hb)
  have hH : ∀ b ∈ h, 32 ≤ b ∧ b ≠ 127 ∧ b ≠ 63 ∧ b ≠ 47 := by
    intro b hb
    rcases hostByte_facts b (hh b hb) with h' | h' | h' | h' | h' <;> omega
  have hP : ∀ b ∈ p, 32 ≤ b ∧ b ≠ 127 ∧ b ≠ 63 := by
    intro b hb
    have := pathByte_facts b (hp b hb)
    tauto
  have hQ : ∀ b ∈ q, 32 ≤ b ∧ b ≠ 127 := by
    intro b hb
    have := queryByte_facts b (hq b hb)
    tauto
  have hassm : assembleURL s h p q =
      s ++ 58 :: (47 :: 47 :: (h ++ (p ++ (if q = [] then [] else 63 :: q)))) := by
    unfold assembleURL
    rw [show lit "://" = [58, 47, 47] from rfl]
    simp only [List.append_assoc, List.cons_append, List.nil_append]
  rw [hassm]
  have hctl : containsCtl
      (s ++ 58 :: (47 :: 47 :: (h ++ (p ++ (if q = [] then [] else 63 :: q))))) = false := by
    rw [containsCtl, List.any_eq_false]
    intro b hb
    simp only [List.mem_append, List.mem_cons] at hb
    have hbb : 32 ≤ b ∧ b ≠ 127 := by
      rcases hb with hb | rfl | rfl | rfl | hb | hb
      · have := hS b hb; omega
      · omega
      · omega
      · omega
      · have := hH b hb; omega
      · rcases hb with hb | hb
        · have := hP b hb; omega
        · by_cases hq0 : q = []
          · rw [if_pos hq0] at hb; simp at hb
          · rw [if_neg hq0] at hb
            rcases List.mem_cons.mp hb with rfl | hb
            · omega
            · have := hQ b hb; omega
    intro hcontra
    simp only [Bool.or_eq_true, decide_eq_true_eq, beq_iff_eq] at hcontra
    omega
  unfold parseInner
  rw [if_neg (by rw [hctl]; simp)]
  have hne42 : s ++ 58 :: (47 :: 47 :: (h ++ (p ++ (if q = [] then [] else 63 :: q)))) ≠ [42] := by
    rcases List.exists_cons_of_ne_nil hs with ⟨c, s', rfl⟩
    have hc := hS c (List.mem_cons_self c s')
    intro heq
    rw [List.cons_append] at heq
    simp only [List.cons.injEq] at heq
    omega
  rw [if_neg hne42]
  rw [getScheme_split s _ hs hsall]
  dsimp only
  rw [toLower_fixed s hsall]
  have hqcut : queryCut (47 :: 47 :: (h ++ (p ++ (if q = [] then [] else 63 :: q)))) =
      (47 :: 47 :: (h ++ p), q, false) := by
    have h63 : (63 : Nat) ∉ 47 :: 47 :: (h ++ p) := by
      intro hm
      rcases List.mem_cons.mp hm with heq | hm
      · omega
      rcases List.mem_cons.mp hm with heq | hm
      · omega
      rcases List.mem_append.mp hm with hm | hm
      · have := hH 63 hm; omega
      · have := hP 63 hm; omega
    by_cases hq0 : q = []
    · subst hq0
      rw [if_pos rfl, List.append_nil]
      exact queryCut_none _ h63
    · rw [if_neg hq0]
      rw [show 47 :: 47 :: (h ++ (p ++ 63 :: q)) = (47 :: 47 :: (h ++ p)) ++ 63 :: q by
        simp]
      exact queryCut_split _ q h63 hq0
  rw [hqcut]
  dsimp only
  have hpref1 : hasPref [47] (47 :: 47 :: (h ++ p)) = true := by
    simp [hasPref]
  have hpref2 : hasPref [47, 47] (47 :: 47 :: (h ++ p)) = true := by
    simp [hasPref]
  rw [if_neg (by simp [hpref1])]
  rw [if_neg (by simp [hpref1])]
  rw [if_pos (by simp [hpref2, hs])]
  have hdrop : (47 :: 47 :: (h ++ p)).drop 2 = h ++ p := rfl
  have h47h : (47 : Nat) ∉ h := fun hm => ((hH 47 hm).2.2.2) rfl
  have hsplit :
      (match indexOfByte 47 ((47 :: 47 :: (h ++ p)).drop 2) with
        | some i => (((47 :: 47 :: (h ++ p)).drop 2).take i,
                     ((47 :: 47 :: (h ++ p)).drop 2).drop i)
        | none => ((47 :: 47 :: (h ++ p)).drop 2, [])) = (h, p) := by
    rw [hdrop]
    rcases hp0 with rfl | ⟨p', rfl⟩
    · rw [List.append_nil, indexOfByte_not_mem 47 h h47h]
    · rw [indexOfByte_append 47 h p' h47h]
      dsimp only
      rw [List.take_left, List.drop_left]
  rw [hsplit]
  dsimp only
  rw [parseAuthority_clean h hh]
  dsimp only
  rw [setPathParts_clean p hp]

/-- url.Parse on a clean assembled absolute URL. -/
theorem urlParse_assemble (s h p q : Str)
    (hs : s ≠ []) (hsall : ∀ b ∈ s, schemeByteOK b = true)
    (hh : ∀ b ∈ h, hostByteOK b = true)
    (hp0 : p = [] ∨ ∃ p', p = 47 :: p')
    (hp : ∀ b ∈ p, pathByteOK b = true)
    (hq : ∀ b ∈ q, queryByteOK b = true) :
    urlParse (assembleURL s h p q) =
      some { scheme := s, opq := [], host := h, path := p,
             rawPath := if escape p EncMode.path = p then [] else p,
             forceQuery := false, rawQuery := q, fragment := [] } := by
  have h35 : (35 : Nat) ∉ assembleURL s h p q := by
    intro hm
    unfold assembleURL at hm
    simp only [List.mem_append, List.mem_cons] at hm
    rcases hm with ((((hm | hm) | hm) | hm) | hm)
    · have := schemeByte_facts 35 (hsall 35 hm); omega
    · rw [show lit "://" = [58, 47, 47] from rfl] at hm
      simp at hm
    · rcases hostByte_facts 35 (hh 35 hm) with h' | h' | h' | h' | h' <;> omega
    · have := pathByte_facts 35 (hp 35 hm); omega
    · by_cases hq0 : q = []
      · rw [if_pos hq0] at hm; simp at hm
      · rw [if_neg hq0] at hm
        rcases List.mem_cons.mp hm with heq | hm
        · omega
        · have := queryByte_facts 35 (hq 35 hm); omega
  unfold urlParse
  rw [cutByte_not_mem 35 _ h35]
  dsimp only
  rw [parseInner_assemble s h p q hs hsall hh hp0 hp hq]
  rfl

/-- normalizeURL is the identity on clean assembled absolute URLs. -/
theorem normalizeURL_assemble (s h p q : Str)
    (hs : s ≠ []) (hsall : ∀ b ∈ s, schemeByteOK b = true)
    (hh : ∀ b ∈ h, hostByteOK b = true)
    (hp0 : p = [] ∨ ∃ p', p = 47 :: p')
    (hp : ∀ b ∈ p, pathByteOK b = true)
    (hq : ∀ b ∈ q, queryByteOK b = true) :
    normalizeURL (assembleURL s h p q) = some (assembleURL s h p q) := by
  have h37 : 37 ∉ p := by
    intro hm
    have := pathByte_facts 37 (hp 37 hm)
    omega
  unfold normalizeURL
  rw [urlParse_assemble s h p q hs hsall hh hp0 hp hq]
  dsimp only
  have hrec : pathUnescape (escapedPath
      { scheme := s
        opq := []
        host := h
        path := p
        rawPath := if escape p EncMode.path = p then [] else p
        forceQuery := false
        rawQuery := q
        fragment := [] }) = some p := by
    refine escapedPath_clean _ p rfl ?_ hp
    dsimp only
    split
    · exact Or.inl rfl
    · exact Or.inr rfl
  rw [hrec]
  dsimp only
  rw [replaceAll_id p h37]
  by_cases hq0 : q = []
  · subst hq0
    rw [if_neg (by simp)]
    unfold assembleURL
    rw [if_pos rfl, List.append_nil]
  · rw [if_pos (by simpa using hq0)]
    unfold assembleURL
    rw [if_neg hq0]
    rw [show (lit "?" : Str) = [63] from rfl]
    simp [List.append_assoc]

/-- Claim C3 (amended): normalizeURL is idempotent on every input whose
output has the clean absolute shape scheme://host path [?query] — lowercase
alphabetic scheme, host of letters/digits/dots/hyphens, path empty or
slash-rooted and free of %, #, ? and control bytes, query free of # and control
bytes (in particular every kabutan article URL).  In general a second
application may fail or differ: normalizeURL "foo" = "://foo" no longer
parses, and a path containing a literal % (e.g. from "%2541") decodes
further on the second pass. -/
theorem normalizeURL_idempotent_on_canonical (u s h p q : Str)
    (hc : canonicalShape s h p q = true)
    (hu : normalizeURL u = some (assembleURL s h p q)) :
    (normalizeURL u).bind normalizeURL = normalizeURL u := by
  simp only [canonicalShape, Bool.and_eq_true, decide_eq_true_eq,
    Bool.or_eq_true, List.all_eq_true] at hc
  obtain ⟨⟨⟨⟨⟨hs, hsall⟩, hh⟩, hp0⟩, hp⟩, hq⟩ := hc
  have hp0' : p = [] ∨ ∃ p', p = 47 :: p' := by
    rcases hp0 with hp0 | hp0
    · exact Or.inl hp0
    · right
      rcases p with _ | ⟨c, cs⟩
      · simp [hasPref] at hp0
      · unfold hasPref at hp0
        simp only [Bool.and_eq_true, decide_eq_true_eq] at hp0
        exact ⟨cs, by rw [← hp0.1]⟩
  rw [hu, Option.some_bind]
  rw [normalizeURL_assemble s h p q hs hsall hh hp0' hp hq]

/-- Witness for C3's amended theorem at a canonical kabutan listing URL. -/
theorem normalizeURL_idempotent_witness :
    (normalizeURL urlSample).bind normalizeURL = normalizeURL urlSample :=
  normalizeURL_idempotent_on_canonical urlSample (lit "https")
    (lit "kabutan.jp") (lit "/news/marketnews/") (lit "market=1")
    (by decide) (by decide)
